import Mathlib

/-!
Verification of the mrkdwn_analysis block tokenizer and inline scanner
(src/mrkdwn_analysis/markdown_analyzer.py) against its specification.

The embedding models lines as lists of characters (a Python `str` split on
the newline character).  Every definition mirrors the corresponding Python
function or regular expression; the regular expressions are compiled to
explicit character-list matchers, following the backtracking semantics of
Python's `re` module on the anchored patterns used by the source.
-/

namespace Mrkdwn

/-- One physical line of the document: Python `str` as a list of characters. -/
abbrev Line := List Char

/-- The backtick character, `chr 96`. -/
def bq : Char := Char.ofNat 96

/-- The newline character. -/
def nl : Char := '\n'

/-- Python whitespace as tested by `str.strip` and by the regex class `\s`
(space, tab, newline, carriage return, vertical tab, form feed). -/
def isPySpace (c : Char) : Bool :=
  c = ' ' || c = '\t' || c = '\n' || c = '\r' || c = '\x0b' || c = '\x0c'

/-- Python `str.strip()`: remove leading and trailing whitespace. -/
def strip (s : Line) : Line :=
  ((s.dropWhile isPySpace).reverse.dropWhile isPySpace).reverse

/-- `not line.strip()`: the line is empty after stripping. -/
def blank (s : Line) : Bool := (strip s).isEmpty

/-- Python `text.split(sep)` for a single-character separator.
`"".split(c) == [""]`, hence the empty list maps to `[[]]`. -/
def splitOnChar (sep : Char) : List Char → List (List Char)
  | [] => [[]]
  | c :: rest =>
    if c = sep then [] :: splitOnChar sep rest
    else
      match splitOnChar sep rest with
      | [] => [[]]
      | l :: ls => (c :: l) :: ls

/-- Python `sep.join(parts)` for a single-character separator. -/
def joinWith (sep : Char) : List Line → Line
  | [] => []
  | [l] => l
  | l :: l₂ :: ls => l ++ sep :: joinWith sep (l₂ :: ls)

/-- Length of the longest prefix consisting of the character `c`. -/
def countLeading (c : Char) (s : Line) : Nat := (s.takeWhile (· == c)).length

/-- Python `str.lower()` (ASCII). -/
def toLowerL (s : Line) : Line := s.map Char.toLower

/-- The line array of a document: `text.split('\n')`. -/
def docLines (text : String) : List Line := splitOnChar nl text.toList

/-- The closing fence marker: three backticks. -/
def fenceMarker : Line := [bq, bq, bq]

/-! ### The compiled regular expressions of `MarkdownParser` -/

/-- `FRONTMATTER_RE = ^---\s*$` (always applied to a stripped line in the
source, but modelled on an arbitrary string). -/
def matchFrontmatter (s : Line) : Bool :=
  s.take 3 == ['-', '-', '-'] && (s.drop 3).all isPySpace

/-- `SETEXT_H1_RE = ^=+\s*$`. -/
def matchSetextH1 (s : Line) : Bool :=
  let k := countLeading '=' s
  decide (1 ≤ k) && (s.drop k).all isPySpace

/-- `SETEXT_H2_RE = ^-+\s*$`. -/
def matchSetextH2 (s : Line) : Bool :=
  let k := countLeading '-' s
  decide (1 ≤ k) && (s.drop k).all isPySpace

/-- `HR_RE = ^(\*{3,}|-{3,}|_{3,})\s*$`. -/
def matchHR (s : Line) : Bool :=
  match s with
  | [] => false
  | c :: _ =>
    (c = '*' || c = '-' || c = '_') &&
      decide (3 ≤ countLeading c s) && (s.drop (countLeading c s)).all isPySpace

/-- `ATX_HEADER_RE = ^(#{1,6})\s+(.*)$`; returns the header level and the
already-stripped group 2 (the source strips it immediately). -/
def matchATX (s : Line) : Option (Nat × Line) :=
  let k := countLeading '#' s
  if 1 ≤ k ∧ k ≤ 6 then
    match s.drop k with
    | c :: _ => if isPySpace c then some (k, strip (s.drop k)) else none
    | [] => none
  else none

/-- `FENCE_RE = ^```([^`]*)$`; returns group 1. -/
def matchFence (s : Line) : Option Line :=
  if s.take 3 == fenceMarker && (s.drop 3).all (fun c => !(c == bq)) then
    some (s.drop 3)
  else none

/-- `BLOCKQUOTE_RE = ^(>\s?)(.*)$`; returns group 2. -/
def matchBlockquote (s : Line) : Option Line :=
  match s with
  | '>' :: rest =>
    match rest with
    | c :: rest₂ => if isPySpace c then some rest₂ else some rest
    | [] => some []
  | _ => none

/-- `ORDERED_LIST_RE = ^\s*\d+\.\s+(.*)$`; returns group 1. -/
def matchOrdered (s : Line) : Option Line :=
  let r := s.dropWhile isPySpace
  let ds := r.takeWhile (·.isDigit)
  if ds.isEmpty then none
  else
    match r.drop ds.length with
    | '.' :: rest =>
      let ws := rest.takeWhile isPySpace
      if ws.isEmpty then none else some (rest.drop ws.length)
    | _ => none

/-- `UNORDERED_LIST_RE = ^\s*[-+*]\s+(.*)$`; returns group 1. -/
def matchUnordered (s : Line) : Option Line :=
  let r := s.dropWhile isPySpace
  match r with
  | c :: rest =>
    if c = '-' || c = '+' || c = '*' then
      let ws := rest.takeWhile isPySpace
      if ws.isEmpty then none else some (rest.drop ws.length)
    else none
  | [] => none

/-- `HTML_BLOCK_START = ^(<([a-zA-Z]+)([^>]*)>|<!--)` used with `.match`:
either an opening tag `<letter…>` with a later closing bracket, or the
literal comment opener. -/
def matchHtmlStart (s : Line) : Bool :=
  (match s with
   | '<' :: c :: rest => c.isAlpha && rest.any (· == '>')
   | _ => false) ||
  s.take 4 == ['<', '!', '-', '-']

/-- `HTML_BLOCK_END_COMMENT = -->\s*$` used with `.search`: the line ends
with `-->` followed only by whitespace. -/
def matchCommentEnd (s : Line) : Bool :=
  (s.reverse.dropWhile isPySpace).take 3 == ['>', '-', '-']

/-- One cell of `TABLE_SEPARATOR_RE`: `\s*:?-+:?\s*`.  Returns the remainder
on success (the pattern is deterministic because whitespace, `:` and `-`
are pairwise disjoint). -/
def matchCell (s : Line) : Option Line :=
  let s₁ := s.dropWhile isPySpace
  let s₂ := match s₁ with | ':' :: r => r | _ => s₁
  let ds := s₂.takeWhile (· == '-')
  if ds.isEmpty then none
  else
    let s₃ := s₂.drop ds.length
    let s₄ := match s₃ with | ':' :: r => r | _ => s₃
    some (s₄.dropWhile isPySpace)

/-- One repetition of the group `(\s*:?-+:?\s*\|)`. -/
def repOnce (s : Line) : Option Line :=
  match matchCell s with
  | some r => match r with | '|' :: r₂ => some r₂ | _ => none
  | none => none

/-- The tail `\s*:?-+:?\s*\|?\s*$` of `TABLE_SEPARATOR_RE`. -/
def tailMatch (s : Line) : Bool :=
  match matchCell s with
  | some r =>
    match r with
    | '|' :: r₂ => r₂.all isPySpace
    | _ => r.all isPySpace
  | none => false

/-- At least one group repetition followed by the tail (backtracking over
the repetition count of `(...)+`). -/
def groupThenTail : Nat → Line → Bool
  | 0, _ => false
  | fuel + 1, s =>
    match repOnce s with
    | none => false
    | some r => tailMatch r || groupThenTail fuel r

/-- `TABLE_SEPARATOR_RE = ^\|?(\s*:?-+:?\s*\|)+\s*:?-+:?\s*\|?\s*$`. -/
def tableSepMatch (s : Line) : Bool :=
  match s with
  | '|' :: r => groupThenTail (s.length + 1) r || groupThenTail (s.length + 1) s
  | _ => groupThenTail (s.length + 1) s

/-- The task-marker pattern of `parse_list`: `^\[( |x)\]\s+(.*)$`.
Returns (checked, group 2). -/
def matchTask (s : Line) : Option (Bool × Line) :=
  match s with
  | '[' :: c :: ']' :: rest =>
    if c = ' ' || c = 'x' then
      let ws := rest.takeWhile isPySpace
      if ws.isEmpty then none else some (c == 'x', rest.drop ws.length)
    else none
  | _ => none

/-- `REFERENCE_DEF_RE = ^\[([^\]]+)\]:\s+(.*?)\s*$` in MULTILINE mode,
modelled per line (faithful whenever a definition sits on a single line;
the Python pattern's `\s+` can additionally jump across line breaks, a
corner the claims do not exercise).  Returns (id, url). -/
def matchRefDef (s : Line) : Option (Line × Line) :=
  match s with
  | '[' :: rest =>
    let idPart := rest.takeWhile (· != ']')
    if idPart.isEmpty then none
    else
      match rest.drop idPart.length with
      | ']' :: ':' :: rest₂ =>
        let ws := rest₂.takeWhile isPySpace
        if ws.isEmpty then none else some (idPart, strip rest₂)
      | _ => none
  | _ => none

/-- `FOOTNOTE_DEF_RE = ^\[\^([^\]]+)\]:\s+(.*?)\s*$`, modelled per line like
`matchRefDef`.  Returns (id, body). -/
def matchFootnoteDef (s : Line) : Option (Line × Line) :=
  match s with
  | '[' :: '^' :: rest =>
    let idPart := rest.takeWhile (· != ']')
    if idPart.isEmpty then none
    else
      match rest.drop idPart.length with
      | ']' :: ':' :: rest₂ =>
        let ws := rest₂.takeWhile isPySpace
        if ws.isEmpty then none else some (idPart, strip rest₂)
      | _ => none
  | _ => none

/-! ### Token data model (`BlockToken`) -/

/-- One entry of a list token's `meta["items"]`.  Python stores a dict with
keys `text` and `task_item`, plus `checked` only for task items; the absent
key is modelled by `none`. -/
structure ListItem where
  text : Line
  task_item : Bool
  checked : Option Bool
deriving DecidableEq, Repr

/-- The shapes taken by `BlockToken.meta` in the source.  The default `{}`
is `empty`; `codeStrict` is the strict parser's fenced-code dict
`{"language": lang}` (note: no `code_type` key); `codeIndented` is
`{"language": None, "code_type": "indented"}`; `codeMDX` is the MDX
parser's `{"language": lang, "code_type": "fenced"}`. -/
inductive TokenMeta where
  | empty
  | codeStrict (language : Line)
  | codeIndented
  | codeMDX (language : Line)
  | table (header : List Line) (rows : List (List Line))
  | items (items : List ListItem)
deriving DecidableEq, Repr

/-- `meta.get("code_type")` on the dict shapes above. -/
def metaCodeType : TokenMeta → Option String
  | .codeIndented => some "indented"
  | .codeMDX _ => some "fenced"
  | _ => none

/-- `meta.get("language")`: `none` when the key is absent, `some none` when
the key is present with value `None`. -/
def metaLanguage : TokenMeta → Option (Option Line)
  | .codeStrict l => some (some l)
  | .codeIndented => some none
  | .codeMDX l => some (some l)
  | _ => none

/-- `BlockToken(type_, content, level, meta, line)`. -/
structure BlockToken where
  type_ : String
  content : Line
  level : Option Nat
  meta : TokenMeta
  line : Option Nat
deriving DecidableEq, Repr

/-- The mutable cursor/output state of `MarkdownParser` (the line array is
passed separately since it never changes). -/
structure PState where
  pos : Nat
  tokens : List BlockToken
deriving DecidableEq, Repr

/-! ### Block tokenizer -/

/-- `starts_new_block`. -/
def starts_new_block (s : Line) : Bool :=
  (matchATX s).isSome || matchFrontmatter s || (matchFence s).isSome ||
  (matchBlockquote s).isSome || (matchOrdered s).isSome ||
  (matchUnordered s).isSome || matchHR s || matchSetextH1 s ||
  matchSetextH2 s || matchHtmlStart s

/-- `line.startswith("    ") or line.startswith("\t")`. -/
def startsIndent (l : Line) : Bool :=
  l.take 4 == [' ', ' ', ' ', ' '] || l.take 1 == ['\t']

/-- Remove one indent unit: 4 spaces, else 1 tab. -/
def stripIndent (l : Line) : Line :=
  if l.take 4 == [' ', ' ', ' ', ' '] then l.drop 4 else l.drop 1

/-- The loop of `parse_indented_code_block`: consume contiguous indented
lines, de-indenting each; returns (content lines, lines consumed). -/
def takeIndented : List Line → List Line × Nat
  | [] => ([], 0)
  | l :: rest =>
    if startsIndent l then
      let r := takeIndented rest
      (stripIndent l :: r.1, r.2 + 1)
    else ([], 0)

/-- The loop of `parse_blockquote`: consume contiguous blockquote lines,
keeping group 2 of each. -/
def takeBq : List Line → List Line × Nat
  | [] => ([], 0)
  | l :: rest =>
    match matchBlockquote l with
    | some g₂ =>
      let r := takeBq rest
      (g₂ :: r.1, r.2 + 1)
    | none => ([], 0)

/-- The loop of `parse_html_block`: after appending the current line, stop
when (in comment mode) the line ends the comment, or the input is
exhausted, or the next line is blank. -/
def takeHtml (commentMode : Bool) : List Line → List Line × Nat
  | [] => ([], 0)
  | l :: rest =>
    if commentMode && matchCommentEnd l then ([l], 1)
    else
      match rest with
      | [] => ([l], 1)
      | nxt :: _ =>
        if blank nxt then ([l], 1)
        else
          let r := takeHtml commentMode rest
          (l :: r.1, r.2 + 1)

/-- The row loop of `parse_table`: consume stripped non-blank lines that do
not start a new block. -/
def takeRows : List Line → List Line × Nat
  | [] => ([], 0)
  | l :: rest =>
    let s := strip l
    if s.isEmpty || starts_new_block s then ([], 0)
    else
      let r := takeRows rest
      (s :: r.1, r.2 + 1)

/-- `parse_row` inside `parse_table`: split on `|`, drop one leading and one
trailing empty part, strip every part. -/
def parse_row (row : Line) : List Line :=
  let parts := splitOnChar '|' (strip row)
  let parts := match parts with
    | [] => []
    | p :: rest => if p.isEmpty then rest else p :: rest
  let parts := match parts.getLast? with
    | some lst => if lst.isEmpty then parts.dropLast else parts
    | none => parts
  parts.map strip

/-- `is_table_start`. -/
def is_table_start (ls : List Line) (pos : Nat) : Bool :=
  decide (pos + 1 < ls.length) &&
  (strip (ls.getD pos [])).contains '|' &&
  (strip (ls.getD (pos + 1) [])).contains '|' &&
  tableSepMatch (strip (ls.getD (pos + 1) []))

/-- `"\n".join(current_item).strip()` pushed when an item is closed; no push
for an empty accumulator. -/
def closeItem (cur : List Line) : List Line :=
  if cur.isEmpty then [] else [strip (joinWith nl cur)]

/-- The loop of `parse_list`: blank lines close the current item and are
consumed; a line starting a different (non-list) block stops the loop; a
list-item line closes the previous item and opens a new one; any other
line is a stripped continuation.  Returns (items, lines consumed). -/
def listLoop (pat : Line → Option Line) : List Line → List Line → List Line × Nat
  | [], current => (closeItem current, 0)
  | l :: rest, current =>
    if blank l then
      let r := listLoop pat rest []
      (closeItem current ++ r.1, r.2 + 1)
    else if starts_new_block (strip l) && (matchOrdered (strip l)).isNone &&
        (matchUnordered (strip l)).isNone then
      (closeItem current, 0)
    else
      match pat l with
      | some g₁ =>
        let r := listLoop pat rest [g₁]
        (closeItem current ++ r.1, r.2 + 1)
      | none =>
        let r := listLoop pat rest (current ++ [strip l])
        (r.1, r.2 + 1)

/-- Task classification of one finished item (`task_re` on the item's first
line). -/
def classifyItem (it : Line) : ListItem :=
  match matchTask (strip (it.takeWhile (· != nl))) with
  | some p => ⟨p.2, true, some p.1⟩
  | none => ⟨it, false, none⟩

/-- The loop of `parse_paragraph`: consume non-blank lines that do not start
a new block; a blank line is consumed and stops the loop. -/
def paraTake : List Line → List Line × Nat
  | [] => ([], 0)
  | l :: rest =>
    if blank l then ([], 1)
    else if starts_new_block (strip l) then ([], 0)
    else
      let r := paraTake rest
      (l :: r.1, r.2 + 1)

/-- Offset of the first line whose stripped form is the closing fence
(`line.strip() == fence_marker` in `parse_fenced_code_block`). -/
def findClose : List Line → Option Nat
  | [] => none
  | l :: rest =>
    if strip l == fenceMarker then some 0 else (findClose rest).map (· + 1)

/-- Offset of the first line whose stripped form closes a frontmatter block. -/
def findFm : List Line → Option Nat
  | [] => none
  | l :: rest =>
    if matchFrontmatter (strip l) then some 0 else (findFm rest).map (· + 1)

/-- `parse_frontmatter`: consume from `pos` (the opening delimiter) through
the closing delimiter, or to EOF.  The emitted token carries no `line`
field (the source constructs it without one).  Returns (token, new pos). -/
def parse_frontmatter (ls : List Line) (pos : Nat) : BlockToken × Nat :=
  match findFm (ls.drop (pos + 1)) with
  | some j =>
    (⟨"frontmatter", joinWith nl ((ls.drop (pos + 1)).take j), none, .empty, none⟩,
     pos + j + 2)
  | none =>
    (⟨"frontmatter", joinWith nl (ls.drop (pos + 1)), none, .empty, none⟩, ls.length)

/-- The indented-code branch of the loop (`parse_indented_code_block`). -/
def indentedRes (ls : List Line) (pos : Nat) : Nat × List BlockToken :=
  let r := takeIndented (ls.drop pos)
  (pos + r.2,
    if r.1.isEmpty then []
    else [⟨"code", joinWith nl r.1, none, .codeIndented, some (pos + 1)⟩])

/-- The table branch of the loop (`parse_table`). -/
def tableRes (ls : List Line) (pos : Nat) : Nat × List BlockToken :=
  let r := takeRows (ls.drop (pos + 2))
  (pos + 2 + r.2,
    [⟨"table", [], none,
      .table (parse_row (strip (ls.getD pos []))) (r.1.map parse_row), some (pos + 1)⟩])

/-- The HTML-block branch of the loop (`parse_html_block`). -/
def htmlRes (ls : List Line) (pos : Nat) : Nat × List BlockToken :=
  let r := takeHtml ((strip (ls.getD pos [])).take 4 == ['<', '!', '-', '-']) (ls.drop pos)
  (pos + r.2, [⟨"html_block", joinWith nl r.1, none, .empty, some (pos + 1)⟩])

/-- The fenced-code branch of the loop (`parse_fenced_code_block`): group 1
of the fence line is stripped into the language; an unclosed fence is the
error, carrying the 1-indexed opening line. -/
def fenceRes (ls : List Line) (pos : Nat) (g₁ : Line) : Except Nat (Nat × List BlockToken) :=
  match findClose (ls.drop (pos + 1)) with
  | some j =>
    .ok (pos + j + 2,
      [⟨"code", joinWith nl ((ls.drop (pos + 1)).take j), none,
        .codeStrict (strip g₁), some (pos + 2)⟩])
  | none => .error (pos + 1)

/-- The blockquote branch of the loop (`parse_blockquote`). -/
def bqRes (ls : List Line) (pos : Nat) : Nat × List BlockToken :=
  let r := takeBq (ls.drop pos)
  (pos + r.2, [⟨"blockquote", joinWith nl r.1, none, .empty, some (pos + 1)⟩])

/-- The list branch of the loop (`parse_list`). -/
def listRes (ls : List Line) (pos : Nat) (ordered : Bool) : Nat × List BlockToken :=
  let r := listLoop (if ordered then matchOrdered else matchUnordered) (ls.drop pos) []
  (pos + r.2,
    [⟨if ordered then "ordered_list" else "unordered_list", [], none,
      .items (r.1.map classifyItem), some (pos + 1)⟩])

/-- The paragraph fallback of the loop (`parse_paragraph`), including the
anti-loop force-advance when no line was consumed. -/
def paraRes (ls : List Line) (pos : Nat) : Nat × List BlockToken :=
  let r := paraTake (ls.drop pos)
  let newPos := pos + r.2
  let newPos := if r.1.isEmpty && decide (newPos < ls.length) then newPos + 1 else newPos
  let content := strip (joinWith nl r.1)
  (newPos,
    if content.isEmpty then []
    else [⟨"paragraph", content, none, .empty, some (pos + 1)⟩])

/-- One iteration of the `while self.pos < self.length` loop of
`MarkdownParser.parse`, with the branch order of the source, computing the
new cursor position and the tokens appended by this iteration.  The only
error path is the unclosed fence of `parse_fenced_code_block`. -/
def stepRes (ls : List Line) (pos : Nat) : Except Nat (Nat × List BlockToken) :=
  if blank (ls.getD pos []) then .ok (pos + 1, [])
  else if startsIndent (ls.getD pos []) then .ok (indentedRes ls pos)
  else if is_table_start ls pos then .ok (tableRes ls pos)
  else if matchHtmlStart (strip (ls.getD pos [])) then .ok (htmlRes ls pos)
  else
    match matchATX (ls.getD pos []) with
    | some lt =>
      .ok (pos + 1, [⟨"header", lt.2, some lt.1, .empty, some (pos + 1)⟩])
    | none =>
      if decide (pos + 1 < ls.length) && matchSetextH1 (strip (ls.getD (pos + 1) [])) then
        .ok (pos + 2, [⟨"header", strip (ls.getD pos []), some 1, .empty, some (pos + 1)⟩])
      else if decide (pos + 1 < ls.length) && matchSetextH2 (strip (ls.getD (pos + 1) [])) then
        .ok (pos + 2, [⟨"header", strip (ls.getD pos []), some 2, .empty, some (pos + 1)⟩])
      else if matchHR (strip (ls.getD pos [])) then
        .ok (pos + 1, [⟨"hr", [], none, .empty, some (pos + 1)⟩])
      else
        match matchFence (strip (ls.getD pos [])) with
        | some g₁ => fenceRes ls pos g₁
        | none =>
          match matchBlockquote (ls.getD pos []) with
          | some _ => .ok (bqRes ls pos)
          | none =>
            if (matchOrdered (ls.getD pos [])).isSome ||
                (matchUnordered (ls.getD pos [])).isSome then
              .ok (listRes ls pos (matchOrdered (ls.getD pos [])).isSome)
            else .ok (paraRes ls pos)

/-- One loop iteration acting on the parser state: the new tokens are
appended to the token list. -/
def step (ls : List Line) (st : PState) : Except Nat PState :=
  match stepRes ls st.pos with
  | .ok r => .ok ⟨r.1, st.tokens ++ r.2⟩
  | .error e => .error e

/-- The `while` loop of `parse`, with an explicit iteration budget: `none`
means the budget was exhausted before the cursor reached the end. -/
def parseLoop (ls : List Line) : Nat → PState → Option (Except Nat (List BlockToken))
  | fuel, st =>
    if ls.length ≤ st.pos then some (.ok st.tokens)
    else
      match fuel with
      | 0 => none
      | fuel + 1 =>
        match step ls st with
        | .error e => some (.error e)
        | .ok st' => parseLoop ls fuel st'

/-- `MarkdownParser(text).parse()`: split into lines, consume a leading
frontmatter block, then run the main loop with an iteration budget equal
to the number of lines (the bound the specification asserts to be
sufficient). -/
def parse (text : String) : Option (Except Nat (List BlockToken)) :=
  let ls := docLines text
  let st₀ : PState :=
    if decide (0 < ls.length) && matchFrontmatter (strip (ls.getD 0 [])) then
      let r := parse_frontmatter ls 0
      ⟨r.2, [r.1]⟩
    else ⟨0, []⟩
  parseLoop ls ls.length st₀

/-! ### The MDX variant parser (`MDXMarkdownParser`) -/

/-- `(l.takeWhile isPySpace).length = len(line) - len(line.lstrip())`. -/
def indentOf (l : Line) : Nat := (l.takeWhile isPySpace).length

/-- Python `min` over a list (total here; the empty case is guarded by the
caller, mirroring the `ValueError` the source would raise). -/
def minList : List Nat → Nat
  | [] => 0
  | x :: xs => xs.foldl Nat.min x

/-- The de-indentation of `MDXMarkdownParser.parse_fenced_code_block`:
keep only non-blank content lines, strip the minimal indent of those
lines, and re-indent each with four spaces. -/
def mdx_clean (content : List Line) : List Line :=
  let nonBlank := content.filter (fun l => !(blank l))
  let base := minList (nonBlank.map indentOf)
  nonBlank.map (fun l => [' ', ' ', ' ', ' '] ++ l.drop base)

/-- `MDXMarkdownParser.parse_fenced_code_block`: tolerant scan.  With no
closing fence it silently consumes to EOF and emits nothing; with a
closing fence it emits a de-indented token only when the content is
non-empty.  `min` over an empty sequence (content present but all blank)
is Python's `ValueError`, modelled as the error case. -/
def mdx_parse_fenced (ls : List Line) (pos : Nat) (lang : Line) :
    Except String (Option BlockToken × Nat) :=
  match findClose (ls.drop (pos + 1)) with
  | none => .ok (none, ls.length)
  | some j =>
    if ((ls.drop (pos + 1)).take j).isEmpty then .ok (none, pos + j + 2)
    else if (((ls.drop (pos + 1)).take j).filter (fun l => !(blank l))).isEmpty then
      .error "min() arg is an empty sequence"
    else
      .ok (some ⟨"code", joinWith nl (mdx_clean ((ls.drop (pos + 1)).take j)), none,
            .codeMDX (strip lang), some (pos + 1)⟩, pos + j + 2)

/-- One iteration of `MDXMarkdownParser.parse`: only fence lines are acted
upon, everything else is skipped. -/
def mdx_step (ls : List Line) (st : PState) : Except String PState :=
  match matchFence (strip (ls.getD st.pos [])) with
  | some g₁ =>
    match mdx_parse_fenced ls st.pos g₁ with
    | .ok (some t, p) => .ok ⟨p, st.tokens ++ [t]⟩
    | .ok (none, p) => .ok ⟨p, st.tokens⟩
    | .error e => .error e
  | none => .ok ⟨st.pos + 1, st.tokens⟩

/-- The loop of `MDXMarkdownParser.parse` with an iteration budget. -/
def mdxLoop (ls : List Line) : Nat → PState → Option (Except String (List BlockToken))
  | fuel, st =>
    if ls.length ≤ st.pos then some (.ok st.tokens)
    else
      match fuel with
      | 0 => none
      | fuel + 1 =>
        match mdx_step ls st with
        | .error e => some (.error e)
        | .ok st' => mdxLoop ls fuel st'

/-- `MDXMarkdownParser(text).parse()` (no frontmatter pre-pass; tokens reset). -/
def mdxParse (text : String) : Option (Except String (List BlockToken)) :=
  let ls := docLines text
  mdxLoop ls ls.length ⟨0, []⟩

/-! ### Reference table builder and inline scanner -/

/-- Python-dict lookup over an association list built by successive writes:
the last write wins. -/
def dictGet (m : List (Line × Line)) (k : Line) : Option Line :=
  ((m.filter (fun p => p.1 == k)).getLast?).map (·.2)

/-- `extract_references_and_footnotes`, reference half: ids lower-cased. -/
def extract_references (ls : List Line) : List (Line × Line) :=
  ls.filterMap (fun l => (matchRefDef l).map (fun p => (toLowerL p.1, p.2)))

/-- `extract_references_and_footnotes`, footnote half: ids case-sensitive. -/
def extract_footnotes (ls : List Line) : List (Line × Line) :=
  ls.filterMap matchFootnoteDef

/-- One match of `IMAGE_OR_LINK_RE =
`(!?\[([^\]]*)\])(\(([^\)]+)\)|\[([^\]]+)\])``:
group 2 is `inner`, group 4 is `url`, group 5 is `ref`. -/
structure LinkMatch where
  isImage : Bool
  inner : Line
  url : Option Line
  ref : Option Line
deriving DecidableEq, Repr

/-- Try `IMAGE_OR_LINK_RE` anchored at the head of `s`; on success return
the match and the remainder after it. -/
def matchLinkAt (s : Line) : Option (LinkMatch × Line) :=
  let p := match s with
    | '!' :: rest => (true, rest)
    | _ => (false, s)
  match p.2 with
  | '[' :: r₁ =>
    let inner := r₁.takeWhile (· != ']')
    match r₁.drop inner.length with
    | ']' :: r₂ =>
      (match r₂ with
       | '(' :: r₃ =>
         let u := r₃.takeWhile (· != ')')
         if u.isEmpty then none
         else
           match r₃.drop u.length with
           | ')' :: r₄ => some (⟨p.1, inner, some u, none⟩, r₄)
           | _ => none
       | '[' :: r₃ =>
         let rid := r₃.takeWhile (· != ']')
         if rid.isEmpty then none
         else
           match r₃.drop rid.length with
           | ']' :: r₄ => some (⟨p.1, inner, none, some rid⟩, r₄)
           | _ => none
       | _ => none)
    | _ => none
  | _ => none

/-- `finditer` of `IMAGE_OR_LINK_RE`: scan left to right, non-overlapping. -/
def findLinksGo : Nat → Line → List LinkMatch
  | 0, _ => []
  | _, [] => []
  | fuel + 1, s =>
    match matchLinkAt s with
    | some (m, rem) => m :: findLinksGo fuel rem
    | none => findLinksGo fuel s.tail

/-- All `IMAGE_OR_LINK_RE` matches in order of occurrence. -/
def findLinks (s : Line) : List LinkMatch := findLinksGo (s.length + 1) s

/-- `finditer` of `FOOTNOTE_RE = \[\^([^\]]+)\]`: scan for the ids of all
footnote references, in order. -/
def findFnGo : Nat → Line → List Line
  | 0, _ => []
  | _, [] => []
  | fuel + 1, s =>
    match s with
    | '[' :: '^' :: r₁ =>
      let fid := r₁.takeWhile (· != ']')
      if fid.isEmpty then findFnGo fuel s.tail
      else
        match r₁.drop fid.length with
        | ']' :: r₂ => fid :: findFnGo fuel r₂
        | _ => findFnGo fuel s.tail
    | _ => findFnGo fuel s.tail

/-- All footnote-reference ids in order of occurrence. -/
def findFootnoteIds (s : Line) : List Line := findFnGo (s.length + 1) s

/-- The footnote loop of `InlineParser.parse_inline`: append `(id, body)`
for each first occurrence of a defined id, tracking the `used_footnotes`
set. -/
def fnUsedGo (fnts : List (Line × Line)) : List Line → List Line → List (Line × Line)
  | [], _ => []
  | fid :: rest, used =>
    match dictGet fnts fid with
    | some body =>
      if used.contains fid then fnUsedGo fnts rest used
      else (fid, body) :: fnUsedGo fnts rest (fid :: used)
    | none => fnUsedGo fnts rest used

/-- `result["footnotes_used"]` for a token content. -/
def footnotes_used (fnts : List (Line × Line)) (text : Line) : List (Line × Line) :=
  fnUsedGo fnts (findFootnoteIds text) []

/-- `final_url` of the link/image loop: the inline url, overridden by the
reference table when the (lower-cased) ref id is one of its keys. -/
def final_url (refs : List (Line × Line)) (m : LinkMatch) : Option Line :=
  match m.ref with
  | some rid =>
    match dictGet refs (toLowerL rid) with
    | some u => some u
    | none => m.url
  | none => m.url

/-- The link/image loop of `parse_inline`: each match is appended to
`text_links` or `image_links` only when its `final_url` is truthy
(present and non-empty). -/
def linkEntries (refs : List (Line × Line)) :
    List LinkMatch → List (Line × Line) × List (Line × Line)
  | [] => ([], [])
  | m :: rest =>
    let r := linkEntries refs rest
    match final_url refs m with
    | some u =>
      if u.isEmpty then r
      else if m.isImage then (r.1, (m.inner, u) :: r.2)
      else ((m.inner, u) :: r.1, r.2)
    | none => r

/-- `result["text_links"]` and `result["image_links"]` for a token content. -/
def parse_inline_links (refs : List (Line × Line)) (text : Line) :
    List (Line × Line) × List (Line × Line) :=
  linkEntries refs (findLinks text)

/-! ### Predicates used by the claim statements -/

/-- Line `i` (0-indexed) opens a fenced code block that no later line
closes: the stripped line matches `FENCE_RE` and no stripped line after it
equals the fence marker. -/
def unclosedAt (ls : List Line) (i : Nat) : Prop :=
  (matchFence (strip (ls.getD i []))).isSome = true ∧
  ∀ j, j < ls.length → i < j → strip (ls.getD j []) ≠ fenceMarker

instance (ls : List Line) (i : Nat) : Decidable (unclosedAt ls i) := by
  unfold unclosedAt; infer_instance

/-- The stop condition of the `parse_html_block` loop after consuming line
`i`: the comment terminator was seen (comment mode), or the input is
exhausted, or the next line is blank. -/
def htmlStop (commentMode : Bool) (ls : List Line) (i : Nat) : Prop :=
  (commentMode = true ∧ matchCommentEnd (ls.getD i []) = true) ∨
  ls.length = i + 1 ∨ blank (ls.getD (i + 1) []) = true

/-- What one loop iteration starting at position `p` may emit: every token
carries the 1-indexed start line `p + 1` (and, if it is a code token, it
came from the indented branch), except a fenced code token, which carries
`p + 2` — the first line after the opening fence — together with the
verbatim joined content between the fences and a meta dict holding only
the language. -/
def StepTok (ls : List Line) (p : Nat) (t : BlockToken) : Prop :=
  (t.line = some (p + 1) ∧ (t.type_ = "code" → t.meta = .codeIndented)) ∨
  (t.type_ = "code" ∧ t.line = some (p + 2) ∧
   ∃ j, findClose (ls.drop (p + 1)) = some j ∧
     t.content = joinWith nl ((ls.drop (p + 1)).take j) ∧
     ∃ lang, t.meta = .codeStrict lang)

/-- The text-link entry contributed by one match, if any: reference-style
matches resolve through the table, and an entry is emitted only when the
final url is present and non-empty. -/
def textEntry (refs : List (Line × Line)) (m : LinkMatch) : Option (Line × Line) :=
  match final_url refs m with
  | some u => if u.isEmpty || m.isImage then none else some (m.inner, u)
  | none => none

/-- The image-link entry contributed by one match, if any. -/
def imageEntry (refs : List (Line × Line)) (m : LinkMatch) : Option (Line × Line) :=
  match final_url refs m with
  | some u => if u.isEmpty || !m.isImage then none else some (m.inner, u)
  | none => none

/-! ## Theorems -/

/-- On the single-line document consisting of a dash followed by a space,
one loop iteration emits an empty unordered-list token and leaves the
cursor unchanged: the line matches the unordered-list pattern, but inside
`parse_list` its stripped form matches `SETEXT_H2_RE` inside
`starts_new_block` while no longer matching a list pattern, so the list
loop breaks after zero lines. -/
lemma step_dash (ts : List BlockToken) :
    step (docLines "- ") ⟨0, ts⟩ =
      .ok ⟨0, ts ++ [⟨"unordered_list", [], none, .items [], some 1⟩]⟩ := rfl

/-- Hence the main loop never reaches the end of the line array, for any
iteration budget. -/
lemma parseLoop_dash (fuel : Nat) :
    ∀ ts, parseLoop (docLines "- ") fuel ⟨0, ts⟩ = none := by
  induction fuel with
  | zero => intro ts; rfl
  | succ n ih =>
    intro ts
    rw [show parseLoop (docLines "- ") (n + 1) ⟨0, ts⟩ =
          parseLoop (docLines "- ") n
            ⟨0, ts ++ [⟨"unordered_list", [], none, .items [], some 1⟩]⟩ from rfl]
    exact ih _

/-- Claim C1: the specification asserts that every iteration of the main
loop advances the cursor by at least 1, so that `parse` terminates on
every finite input.  The code violates this: on the input consisting of a
dash and a space the unordered-list branch emits an empty list token
without advancing the cursor, and the loop never terminates (the fuelled
loop returns `none` for every budget).  The four regression inputs named
by the claim do terminate and produce token sequences. -/
theorem claim1_progress :
    (∀ fuel ts, parseLoop (docLines "- ") fuel ⟨0, ts⟩ = none) ∧
    parse "- " = none ∧
    parse "===" = some (.ok []) ∧
    parse "===\n" = some (.ok []) ∧
    parse "\n===\n" = some (.ok []) ∧
    parse "---\n" = some (.ok [⟨"frontmatter", [], none, .empty, none⟩]) :=
  ⟨fun fuel ts => parseLoop_dash fuel ts, parseLoop_dash 2 [], rfl, rfl, rfl, rfl⟩

/-- Claim C5: parsing a setext level-1 header consumes both lines and
yields exactly one header token with level 1 and the trimmed content. -/
theorem claim5_setext_header :
    parse "Title\n===" =
      some (.ok [⟨"header", "Title".toList, some 1, .empty, some 1⟩]) := rfl

/-- Every token of the indented branch: start line `pos + 1`, indented meta. -/
lemma indentedRes_shape (ls : List Line) (pos : Nat) :
    (indentedRes ls pos).2 = [] ∨
      ∃ t, (indentedRes ls pos).2 = [t] ∧ StepTok ls pos t := by
  simp only [indentedRes]
  split
  · exact Or.inl rfl
  · exact Or.inr ⟨_, rfl, Or.inl ⟨rfl, fun _ => rfl⟩⟩

/-- The table branch emits one token with start line `pos + 1`. -/
lemma tableRes_shape (ls : List Line) (pos : Nat) :
    ∃ t, (tableRes ls pos).2 = [t] ∧ StepTok ls pos t :=
  ⟨_, rfl, Or.inl ⟨rfl, fun hc => absurd hc (by simp)⟩⟩

/-- The HTML branch emits one token with start line `pos + 1`. -/
lemma htmlRes_shape (ls : List Line) (pos : Nat) :
    ∃ t, (htmlRes ls pos).2 = [t] ∧ StepTok ls pos t :=
  ⟨_, rfl, Or.inl ⟨rfl, fun hc => absurd hc (by simp)⟩⟩

/-- The blockquote branch emits one token with start line `pos + 1`. -/
lemma bqRes_shape (ls : List Line) (pos : Nat) :
    ∃ t, (bqRes ls pos).2 = [t] ∧ StepTok ls pos t :=
  ⟨_, rfl, Or.inl ⟨rfl, fun hc => absurd hc (by simp)⟩⟩

/-- The list branch emits one token with start line `pos + 1`. -/
lemma listRes_shape (ls : List Line) (pos : Nat) (ordered : Bool) :
    ∃ t, (listRes ls pos ordered).2 = [t] ∧ StepTok ls pos t :=
  ⟨_, rfl, Or.inl ⟨rfl, fun hc => absurd hc (by cases ordered <;> simp)⟩⟩

/-- The paragraph branch: no token, or one with start line `pos + 1`. -/
lemma paraRes_shape (ls : List Line) (pos : Nat) :
    (paraRes ls pos).2 = [] ∨ ∃ t, (paraRes ls pos).2 = [t] ∧ StepTok ls pos t := by
  simp only [paraRes]
  split
  · exact Or.inl rfl
  · exact Or.inr ⟨_, rfl, Or.inl ⟨rfl, fun hc => absurd hc (by simp)⟩⟩

/-- A successful fenced branch emits the code token of the strict parser:
start line `pos + 2`, verbatim joined content between the fences, meta
holding only the stripped language. -/
lemma fenceRes_shape {ls : List Line} {pos : Nat} {g₁ : Line} {p : Nat}
    {ts : List BlockToken} (h : fenceRes ls pos g₁ = .ok (p, ts)) :
    ∃ t, ts = [t] ∧ StepTok ls pos t := by
  unfold fenceRes at h
  split at h
  · rename_i j hcl
    obtain ⟨h₁, h₂⟩ := Prod.mk.injEq .. ▸ Except.ok.inj h
    exact ⟨_, h₂.symm, Or.inr ⟨rfl, rfl, j, hcl, rfl, _, rfl⟩⟩
  · exact absurd h (by simp)

/-- A failing fenced branch means the fence has no closing line; the error
is the 1-indexed opening line. -/
lemma fenceRes_error {ls : List Line} {pos : Nat} {g₁ : Line} {n : Nat}
    (h : fenceRes ls pos g₁ = .error n) :
    n = pos + 1 ∧ findClose (ls.drop (pos + 1)) = none := by
  unfold fenceRes at h
  split at h
  · exact absurd h (by simp)
  · rename_i hcl
    exact ⟨(Except.error.inj h).symm, hcl⟩

/-- Shape of a successful loop iteration: at most one token is emitted and
it satisfies `StepTok`. -/
lemma stepRes_shape {ls : List Line} {pos p : Nat} {ts : List BlockToken}
    (h : stepRes ls pos = .ok (p, ts)) :
    ts = [] ∨ ∃ t, ts = [t] ∧ StepTok ls pos t := by
  have fromPair : ∀ q : Nat × List BlockToken, Except.ok (ε := Nat) q = .ok (p, ts) →
      ts = q.2 := by
    intro q hq
    obtain rfl := Except.ok.inj hq
    rfl
  delta stepRes at h
  split at h
  · exact Or.inl (fromPair _ h ▸ rfl)
  · split at h
    · rw [fromPair _ h]; exact indentedRes_shape ls pos
    · split at h
      · rw [fromPair _ h]; exact Or.inr (tableRes_shape ls pos)
      · split at h
        · rw [fromPair _ h]; exact Or.inr (htmlRes_shape ls pos)
        · split at h
          · rw [fromPair _ h]
            exact Or.inr ⟨_, rfl, Or.inl ⟨rfl, fun hc => absurd hc (by simp)⟩⟩
          · split at h
            · rw [fromPair _ h]
              exact Or.inr ⟨_, rfl, Or.inl ⟨rfl, fun hc => absurd hc (by simp)⟩⟩
            · split at h
              · rw [fromPair _ h]
                exact Or.inr ⟨_, rfl, Or.inl ⟨rfl, fun hc => absurd hc (by simp)⟩⟩
              · split at h
                · rw [fromPair _ h]
                  exact Or.inr ⟨_, rfl, Or.inl ⟨rfl, fun hc => absurd hc (by simp)⟩⟩
                · split at h
                  · exact Or.inr (fenceRes_shape h)
                  · split at h
                    · rw [fromPair _ h]; exact Or.inr (bqRes_shape ls pos)
                    · split at h
                      · rw [fromPair _ h]; exact Or.inr (listRes_shape ls pos _)
                      · rw [fromPair _ h]; exact paraRes_shape ls pos

/-- The only error of a loop iteration is the unclosed fence, reported at
its 1-indexed opening line. -/
lemma stepRes_error {ls : List Line} {pos n : Nat}
    (h : stepRes ls pos = .error n) :
    n = pos + 1 ∧ (matchFence (strip (ls.getD pos []))).isSome = true ∧
      findClose (ls.drop (pos + 1)) = none := by
  delta stepRes at h
  split at h
  · exact absurd h (by simp)
  · split at h
    · exact absurd h (by simp)
    · split at h
      · exact absurd h (by simp)
      · split at h
        · exact absurd h (by simp)
        · split at h
          · exact absurd h (by simp)
          · split at h
            · exact absurd h (by simp)
            · split at h
              · exact absurd h (by simp)
              · split at h
                · exact absurd h (by simp)
                · split at h
                  · rename_i g₁ hfen
                    obtain ⟨h₁, h₂⟩ := fenceRes_error h
                    exact ⟨h₁, by rw [hfen]; rfl, h₂⟩
                  · split at h
                    · exact absurd h (by simp)
                    · split at h
                      · exact absurd h (by simp)
                      · exact absurd h (by simp)

/-- `findClose` fails exactly when no line strips to the fence marker. -/
lemma findClose_none {l : List Line} (h : findClose l = none) :
    ∀ x ∈ l, strip x ≠ fenceMarker := by
  induction l with
  | nil => intro x hx; cases hx
  | cons a rest ih =>
    have hsplit : ¬(strip a == fenceMarker) = true ∧ findClose rest = none := by
      unfold findClose at h
      split at h
      · cases h
      · rename_i hs
        refine ⟨hs, ?_⟩
        cases hcl : findClose rest
        · rfl
        · rw [hcl] at h; simp at h
    intro x hx
    rw [List.mem_cons] at hx
    rcases hx with rfl | hx
    · intro heq
      exact hsplit.1 (by rw [heq]; simp)
    · exact ih hsplit.2 x hx

/-- An in-bounds element read with `getD` belongs to any prefix-dropping of
the list that still contains its position. -/
lemma getD_mem_drop :
    ∀ (ls : List Line) (q j : Nat), q ≤ j → j < ls.length → ls.getD j [] ∈ ls.drop q := by
  intro ls
  induction ls with
  | nil => intro q j _ hj; simp at hj
  | cons a rest ih =>
    intro q j hqj hj
    cases q with
    | zero =>
      cases j with
      | zero => simp [List.getD]
      | succ j' =>
        simp only [List.drop_zero]
        have : rest.getD j' [] ∈ rest.drop 0 :=
          ih 0 j' (Nat.zero_le _) (by simpa using Nat.lt_of_succ_lt_succ hj)
        simp only [List.drop_zero] at this
        exact List.mem_cons_of_mem a (by simpa [List.getD] using this)
    | succ q' =>
      cases j with
      | zero => exact absurd hqj (by omega)
      | succ j' =>
        simpa [List.getD] using
          ih q' j' (Nat.le_of_succ_le_succ hqj) (by simpa using Nat.lt_of_succ_lt_succ hj)

/-- If the fuelled loop reports an error, some reachable position below the
end of the line array carries an unclosed fence, and the error is its
1-indexed line. -/
lemma parseLoop_error {ls : List Line} :
    ∀ fuel st n, parseLoop ls fuel st = some (.error n) →
      ∃ q, q < ls.length ∧ n = q + 1 ∧
        (matchFence (strip (ls.getD q []))).isSome = true ∧
        findClose (ls.drop (q + 1)) = none := by
  intro fuel
  induction fuel with
  | zero =>
    intro st n h
    unfold parseLoop at h
    split at h
    · simp at h
    · cases h
  | succ f ih =>
    intro st n h
    unfold parseLoop at h
    split at h
    · simp at h
    · rename_i hlt
      have hpos : st.pos < ls.length := by omega
      rcases hst : step ls st with e | st'
      · rw [hst] at h
        have he : e = n := by simpa using h
        unfold step at hst
        rcases hres : stepRes ls st.pos with e' | r
        · rw [hres] at hst
          have he' : e' = e := by simpa using hst
          obtain ⟨h₁, h₂, h₃⟩ := stepRes_error hres
          exact ⟨st.pos, hpos, by omega, h₂, h₃⟩
        · rw [hres] at hst; simp at hst
      · rw [hst] at h
        exact ih st' n h

/-- Claim C2: in strict mode an error is raised only for an unclosed fenced
code block, and it reports the 1-indexed line of the opening fence (first
conjunct).  The complementary half of the claim — that every input without
an unclosed fence yields a token sequence — fails on the dash-space input:
it contains no fence at all, yet `parse` never returns (second conjunct),
because of the non-advancing list branch. -/
theorem claim2_strict_errors :
    (∀ text n, parse text = some (.error n) →
      1 ≤ n ∧ unclosedAt (docLines text) (n - 1)) ∧
    ((∀ i, i < (docLines "- ").length → ¬ unclosedAt (docLines "- ") i) ∧
      parse "- " = none ∧
      ∀ fuel ts, parseLoop (docLines "- ") fuel ⟨0, ts⟩ = none) := by
  constructor
  · intro text n h
    unfold parse at h
    obtain ⟨q, hq, rfl, hf, hcl⟩ := parseLoop_error _ _ _ h
    refine ⟨by omega, ?_⟩
    constructor
    · simpa using hf
    · intro j hj hqj
      have : j = q + 1 + (j - (q + 1)) := by omega
      exact findClose_none hcl _ (getD_mem_drop _ (q + 1) j (by omega) hj)
  · exact ⟨by decide, parseLoop_dash 2 [], fun fuel ts => parseLoop_dash fuel ts⟩

/-- Claim C2 witness: the two-line document opening a fence with language
tag and never closing it errors at line 1, which indeed carries an
unclosed opening fence. -/
theorem claim2_witness :
    1 ≤ 1 ∧ unclosedAt (docLines "```js\nx") 0 :=
  claim2_strict_errors.1 "```js\nx" 1 rfl

/-- Claim C3 counterexample: the code token of a fenced block opening at
physical line 1 carries `line = 2` (the first content line), not the
opening fence line; and a frontmatter token carries no line at all,
though its opening delimiter is physical line 1. -/
theorem claim3_counterexample :
    parse "```\nx\n```" =
      some (.ok [⟨"code", ['x'], none, .codeStrict [], some 2⟩]) ∧
    (some 2 : Option Nat) ≠ some 1 ∧
    parse "---\nrest" =
      some (.ok [⟨"frontmatter", "rest".toList, none, .empty, none⟩]) ∧
    (none : Option Nat) ≠ some 1 :=
  ⟨rfl, by decide, rfl, by decide⟩

/-- Claim C3, amended: a loop iteration beginning to consume a construct at
position `p` (0-indexed) stamps every emitted token with the 1-indexed
start line `p + 1`, except the fenced-code token, which is stamped
`p + 2`; the frontmatter token carries no line field. -/
theorem claim3_start_lines :
    (∀ (ls : List Line) (st st' : PState), step ls st = .ok st' →
      st'.tokens = st.tokens ∨
      ∃ t, st'.tokens = st.tokens ++ [t] ∧
        (t.line = some (st.pos + 1) ∨
         (t.type_ = "code" ∧ (∃ lang, t.meta = TokenMeta.codeStrict lang) ∧
          t.line = some (st.pos + 2)))) ∧
    (∀ (ls : List Line) (pos : Nat), (parse_frontmatter ls pos).1.line = none) := by
  constructor
  · intro ls st st' h
    unfold step at h
    rcases hres : stepRes ls st.pos with e | r
    · rw [hres] at h; cases h
    · obtain ⟨p, ts⟩ := r
      rw [hres] at h
      have hst' : st' = ⟨p, st.tokens ++ ts⟩ := (Except.ok.inj h).symm
      subst hst'
      rcases stepRes_shape hres with hemp | ⟨t, hts, hshape⟩
      · exact Or.inl (by simp [hemp])
      · refine Or.inr ⟨t, by rw [hts], ?_⟩
        rcases hshape with ⟨hline, _⟩ | ⟨hcode, hline, ⟨j, _, _, lang, hmeta⟩⟩
        · exact Or.inl hline
        · exact Or.inr ⟨hcode, ⟨lang, hmeta⟩, hline⟩
  · intro ls pos
    unfold parse_frontmatter
    split <;> rfl

/-- Claim C3 witness: an ATX header step at position 0 emits one token
stamped with line 1. -/
theorem claim3_witness :
    ([⟨"header", "Hi".toList, some 1, .empty, some 1⟩] : List BlockToken) =
      ([] : List BlockToken) ∨
    ∃ t, ([⟨"header", "Hi".toList, some 1, .empty, some 1⟩] : List BlockToken) =
        [] ++ [t] ∧
      (t.line = some (0 + 1) ∨
       (t.type_ = "code" ∧ (∃ lang, t.meta = TokenMeta.codeStrict lang) ∧
        t.line = some (0 + 2))) :=
  claim3_start_lines.1 (docLines "# Hi") ⟨0, []⟩
    ⟨1, [⟨"header", "Hi".toList, some 1, .empty, some 1⟩]⟩ rfl

/-- Claim C8 counterexample: the strict tokenizer's fenced code token has a
meta dict with no `code_type` key at all (so not `"fenced"`), and its
`language` is the empty string — not null — when the fence carries no
tag. -/
theorem claim8_counterexample :
    parse "```\nprint\n```" =
      some (.ok [⟨"code", "print".toList, none, .codeStrict [], some 2⟩]) ∧
    metaCodeType (TokenMeta.codeStrict []) = none ∧
    metaCodeType (TokenMeta.codeStrict []) ≠ some "fenced" ∧
    metaLanguage (TokenMeta.codeStrict []) = some (some []) ∧
    metaLanguage (TokenMeta.codeStrict []) ≠ some none :=
  ⟨rfl, rfl, by decide, rfl, by decide⟩

/-- Claim C8, amended: every code token emitted by a strict-mode loop
iteration either comes from the indented branch, or is a fenced token
whose content is the verbatim join of the lines strictly between the
fences and whose meta holds exactly the stripped language tag — the
`code_type` key is absent and the language is a (possibly empty) string. -/
theorem claim8_fenced_meta :
    ∀ (ls : List Line) (pos p : Nat) (ts : List BlockToken) (t : BlockToken),
      stepRes ls pos = .ok (p, ts) → t ∈ ts → t.type_ = "code" →
      (t.meta = .codeIndented ∨
       ∃ j lang, findClose (ls.drop (pos + 1)) = some j ∧
         t.content = joinWith nl ((ls.drop (pos + 1)).take j) ∧
         t.meta = .codeStrict lang ∧ metaCodeType t.meta = none ∧
         metaLanguage t.meta = some (some lang)) := by
  intro ls pos p ts t h hmem hcode
  rcases stepRes_shape h with rfl | ⟨t', hts, hshape⟩
  · cases hmem
  · subst hts
    obtain rfl : t = t' := by simpa using hmem
    rcases hshape with ⟨_, hind⟩ | ⟨_, _, j, hcl, hcont, lang, hmeta⟩
    · exact Or.inl (hind hcode)
    · exact Or.inr ⟨j, lang, hcl, hcont, hmeta, by rw [hmeta]; rfl, by rw [hmeta]; rfl⟩

/-- Claim C8 witness: the fence step on a concrete three-line document. -/
theorem claim8_witness :
    (⟨"code", ['x'], none, .codeStrict "js".toList, some 2⟩ : BlockToken).meta =
        TokenMeta.codeIndented ∨
    ∃ j lang, findClose ((docLines "```js\nx\n```").drop 1) = some j ∧
      (⟨"code", ['x'], none, .codeStrict "js".toList, some 2⟩ : BlockToken).content =
        joinWith nl (((docLines "```js\nx\n```").drop 1).take j) ∧
      (⟨"code", ['x'], none, .codeStrict "js".toList, some 2⟩ : BlockToken).meta =
        .codeStrict lang ∧
      metaCodeType (⟨"code", ['x'], none, .codeStrict "js".toList, some 2⟩ :
        BlockToken).meta = none ∧
      metaLanguage (⟨"code", ['x'], none, .codeStrict "js".toList, some 2⟩ :
        BlockToken).meta = some (some lang) :=
  claim8_fenced_meta (docLines "```js\nx\n```") 0 3
    [⟨"code", ['x'], none, .codeStrict "js".toList, some 2⟩]
    ⟨"code", ['x'], none, .codeStrict "js".toList, some 2⟩ rfl (by simp) rfl

/-- `splitOnChar` always yields at least one part. -/
lemma splitOnChar_ne_nil (sep : Char) : ∀ s, splitOnChar sep s ≠ [] := by
  intro s
  cases s with
  | nil => simp [splitOnChar]
  | cons c rest =>
    simp only [splitOnChar]
    split
    · simp
    · rcases h : splitOnChar sep rest with _ | ⟨l, ls⟩
      · simp
      · simp

/-- Splitting a string that starts with the separator yields a leading
empty part. -/
lemma splitOnChar_cons_sep (sep : Char) (t : List Char) :
    splitOnChar sep (sep :: t) = [] :: splitOnChar sep t := by
  simp [splitOnChar]

/-- Splitting `a ++ sep :: t` where `a` is separator-free isolates `a`. -/
lemma splitOnChar_append (sep : Char) :
    ∀ (a : List Char), (∀ x ∈ a, x ≠ sep) → ∀ t,
      splitOnChar sep (a ++ sep :: t) = a :: splitOnChar sep t := by
  intro a
  induction a with
  | nil => intro _ t; simpa using splitOnChar_cons_sep sep t
  | cons c a' ih =>
    intro h t
    have hc : c ≠ sep := h c (by simp)
    have hih := ih (fun x hx => h x (by simp [hx])) t
    rw [List.cons_append]
    simp only [splitOnChar, if_neg hc]
    rw [hih]

/-- Splitting the pipe-joined cells (with a trailing separator) recovers
the cells plus one trailing empty part. -/
lemma splitOnChar_join (sep : Char) :
    ∀ (cells : List Line), cells ≠ [] →
      (∀ c ∈ cells, ∀ x ∈ c, x ≠ sep) →
      splitOnChar sep (joinWith sep cells ++ [sep]) = cells ++ [[]] := by
  intro cells
  induction cells with
  | nil => intro h; exact absurd rfl h
  | cons c rest ih =>
    intro _ h
    cases rest with
    | nil =>
      have := splitOnChar_append sep c (h c (by simp)) []
      simpa [joinWith, splitOnChar] using this
    | cons c₂ rest' =>
      have hstep : joinWith sep (c :: c₂ :: rest') ++ [sep] =
          c ++ sep :: (joinWith sep (c₂ :: rest') ++ [sep]) := by
        simp [joinWith]
      rw [hstep, splitOnChar_append sep c (h c (by simp))]
      rw [ih (by simp) (fun d hd => h d (by simp [hd]))]
      simp

/-- Stripping is the identity on a row delimited by pipes on both sides. -/
lemma strip_pipe_edges (x : List Char) :
    strip ('|' :: (x ++ ['|'])) = '|' :: (x ++ ['|']) := by
  have hdw : ∀ y : List Char, ('|' :: y).dropWhile isPySpace = '|' :: y := by
    intro y
    rw [List.dropWhile_cons]
    simp [isPySpace]
  unfold strip
  rw [hdw]
  have hrev : ('|' :: (x ++ ['|'])).reverse = '|' :: (x.reverse ++ ['|']) := by
    simp
  rw [hrev, hdw]
  simp

/-- Claim C4: the concrete table of the claim parses with header
`[Col1, Col2]` and single data row `["", "ttt"]`; and in general, a row
written `|c₁|…|cₙ|` with pipe-free cells splits to exactly the stripped
cells — one leading and one trailing empty part are dropped, interior
empty cells are preserved. -/
theorem claim4_table_cells :
    parse "|Col1|Col2|\n|---|---|\n||ttt|" =
      some (.ok [⟨"table", [], none,
        .table ["Col1".toList, "Col2".toList] [[[], "ttt".toList]], some 1⟩]) ∧
    ∀ (cells : List Line), cells ≠ [] → (∀ c ∈ cells, ∀ x ∈ c, x ≠ '|') →
      parse_row ('|' :: (joinWith '|' cells ++ ['|'])) = cells.map strip := by
  constructor
  · rfl
  · intro cells hne h
    unfold parse_row
    rw [strip_pipe_edges, splitOnChar_cons_sep, splitOnChar_join '|' cells hne h]
    simp

/-- Claim C4 witness: the data row of the claim, with its interior empty
cell preserved and the outer empties dropped. -/
theorem claim4_witness :
    parse_row "||ttt|".toList = [[], "ttt".toList] := by
  have h := claim4_table_cells.2 [[], "ttt".toList] (by simp) (by decide)
  exact h

/-- Claim C6 counterexample: a reference definition with an empty url — as
produced by the document ending in a definition line with no target — puts
the id in the reference table, yet the scanner emits no entry for a match
resolving to it, because the empty url is falsy in the source's
`if final_url:` test.  The claim asserts an entry for every match whose
lower-cased id is a key of the table. -/
theorem claim6_counterexample :
    parse "see [text][g]\n[g]: " =
      some (.ok [⟨"paragraph", "see [text][g]\n[g]:".toList, none, .empty, some 1⟩]) ∧
    dictGet (extract_references (docLines "see [text][g]\n[g]: ")) ['g'] = some [] ∧
    parse_inline_links (extract_references (docLines "see [text][g]\n[g]: "))
      "see [text][g]\n[g]:".toList = ([], []) :=
  ⟨rfl, rfl, rfl⟩

/-- Claim C6, amended: the link/image loop appends, for each match in
order, exactly the entry given by `textEntry`/`imageEntry` — a
reference-style match contributes an entry precisely when its lower-cased
id resolves in the table to a non-empty url (an unresolved id, or one
mapped to the empty string, contributes nothing).  Concretely, the
definition of the claim resolves `[text][g]` to
`https://example.com`, and with an empty table the match is dropped. -/
theorem claim6_reference_links :
    (∀ (refs : List (Line × Line)) (ms : List LinkMatch),
      linkEntries refs ms = (ms.filterMap (textEntry refs), ms.filterMap (imageEntry refs))) ∧
    parse_inline_links [(['g'], "https://example.com".toList)] "[text][g]".toList =
      ([("text".toList, "https://example.com".toList)], []) ∧
    parse_inline_links [] "[text][g]".toList = ([], []) := by
  refine ⟨?_, rfl, rfl⟩
  intro refs ms
  induction ms with
  | nil => rfl
  | cons m rest ih =>
    simp only [linkEntries, List.filterMap_cons, ih, textEntry, imageEntry]
    rcases hu : final_url refs m with _ | u
    · rfl
    · by_cases he : u.isEmpty <;> by_cases him : m.isImage = true <;>
        simp [he, him]

/-- Claim C7: within one scanned token, each footnote id occurring in the
content and defined in the footnote table contributes exactly one entry to
`footnotes_used` (carrying the definition body); repeats and undefined ids
contribute nothing. -/
theorem claim7_footnote_dedup :
    ∀ (fnts : List (Line × Line)) (text : Line) (fid : Line),
      (List.countP (fun e => e.1 == fid) (footnotes_used fnts text) =
        if fid ∈ findFootnoteIds text ∧ (dictGet fnts fid).isSome = true then 1 else 0) ∧
      (∀ e ∈ footnotes_used fnts text, dictGet fnts e.1 = some e.2) := by
  have hcount : ∀ (fnts : List (Line × Line)) (fid : Line) (ids used : List Line),
      List.countP (fun e => e.1 == fid) (fnUsedGo fnts ids used) =
        if fid ∈ ids ∧ (dictGet fnts fid).isSome = true ∧ fid ∉ used then 1 else 0 := by
    intro fnts fid ids
    induction ids with
    | nil => intro used; simp [fnUsedGo]
    | cons i rest ih =>
      intro used
      rcases hg : dictGet fnts i with _ | body
      · have hstep : fnUsedGo fnts (i :: rest) used = fnUsedGo fnts rest used := by
          simp only [fnUsedGo, hg]
        rw [hstep, ih]
        by_cases hif : fid = i
        · subst hif; simp [hg, List.mem_cons]
        · simp [List.mem_cons, hif]
      · have hstep : fnUsedGo fnts (i :: rest) used =
            if used.contains i then fnUsedGo fnts rest used
            else (i, body) :: fnUsedGo fnts rest (i :: used) := by
          simp only [fnUsedGo, hg]
        rw [hstep]
        by_cases hu : used.contains i = true
        · rw [if_pos hu, ih]
          have hmemu : i ∈ used := by simpa using hu
          by_cases hif : fid = i
          · subst hif; simp [List.mem_cons, hmemu]
          · simp [List.mem_cons, hif]
        · rw [if_neg hu, List.countP_cons, ih]
          have hmemu : i ∉ used := by simpa using hu
          by_cases hif : fid = i
          · subst hif
            simp [List.mem_cons, hg, hmemu]
          · have hb : ((i, body).1 == fid) = false := by
              simp; exact fun h => hif h.symm
            simp only [hb, if_false]
            have hni : fid ∉ i :: used ↔ fid ∉ used := by
              simp [List.mem_cons, hif]
            simp [List.mem_cons, hif, hni]
  have hbody : ∀ (fnts : List (Line × Line)) (ids used : List Line),
      ∀ e ∈ fnUsedGo fnts ids used, dictGet fnts e.1 = some e.2 := by
    intro fnts ids
    induction ids with
    | nil => intro used e he; cases he
    | cons i rest ih =>
      intro used e he
      rcases hg : dictGet fnts i with _ | body
      · have hstep : fnUsedGo fnts (i :: rest) used = fnUsedGo fnts rest used := by
          simp only [fnUsedGo, hg]
        rw [hstep] at he
        exact ih used e he
      · have hstep : fnUsedGo fnts (i :: rest) used =
            if used.contains i then fnUsedGo fnts rest used
            else (i, body) :: fnUsedGo fnts rest (i :: used) := by
          simp only [fnUsedGo, hg]
        rw [hstep] at he
        by_cases hu : used.contains i = true
        · rw [if_pos hu] at he
          exact ih used e he
        · rw [if_neg hu] at he
          rcases List.mem_cons.mp he with rfl | hmem
          · exact hg
          · exact ih _ e hmem
  intro fnts text fid
  refine ⟨?_, hbody fnts _ []⟩
  rw [footnotes_used, hcount]
  simp

/-- Claim C7 witness: a token referencing the defined footnote 1 twice and
the undefined footnote 2 once yields exactly one entry for id 1, carrying
the body. -/
theorem claim7_witness :
    List.countP (fun e => e.1 == ['1'])
        (footnotes_used [(['1'], "body".toList)] "a[^1]b[^1]c[^2]".toList) = 1 ∧
    dictGet [(['1'], "body".toList)] ['1'] = some "body".toList := by
  constructor
  · rw [(claim7_footnote_dedup [(['1'], "body".toList)] "a[^1]b[^1]c[^2]".toList ['1']).1]
    decide
  · exact (claim7_footnote_dedup [(['1'], "body".toList)] "a[^1]b[^1]c[^2]".toList ['1']).2
      (['1'], "body".toList) (by decide)

/-- Shifting the HTML-block stop condition across the head of the line
list. -/
lemma htmlStop_cons (cm : Bool) (l : Line) (rest : List Line) (i : Nat)
    (hi : 1 ≤ i) : htmlStop cm (l :: rest) i ↔ htmlStop cm rest (i - 1) := by
  obtain ⟨i', rfl⟩ : ∃ i', i = i' + 1 := ⟨i - 1, by omega⟩
  simp only [htmlStop, List.getD_cons_succ, List.length_cons, Nat.add_sub_cancel]
  constructor
  · rintro (h | h | h)
    · exact Or.inl h
    · exact Or.inr (Or.inl (by omega))
    · exact Or.inr (Or.inr h)
  · rintro (h | h | h)
    · exact Or.inl h
    · exact Or.inr (Or.inl (by omega))
    · exact Or.inr (Or.inr h)

/-- Claim C9 counterexample: in comment mode the loop stops at a blank
line even before the closing marker has been seen — the comment opener
alone becomes the HTML block and the closing line is parsed as a
paragraph.  Moreover a line merely containing the closing marker (with
trailing text) does not end the block: the block runs on to the next
stop.  Both contradict consuming "up to and including the first line
containing the closing marker, regardless of intervening blank lines". -/
theorem claim9_counterexample :
    parse "<!--\n\nx-->" =
      some (.ok [⟨"html_block", "<!--".toList, none, .empty, some 1⟩,
                 ⟨"paragraph", "x-->".toList, none, .empty, some 3⟩]) ∧
    parse "<!-- a --> b\nc" =
      some (.ok [⟨"html_block", "<!-- a --> b\nc".toList, none, .empty, some 1⟩]) :=
  ⟨rfl, rfl⟩

/-- Claim C9, amended: the HTML-block loop consumes a prefix of the lines;
the last consumed line is the first one satisfying the stop condition —
in comment mode, a line ending with the comment terminator (followed only
by whitespace), or in any mode the last line of the input or a line whose
successor is blank; no earlier line satisfies it. -/
theorem claim9_html_block (cm : Bool) :
    ∀ ls : List Line, ls ≠ [] →
      (takeHtml cm ls).1 = ls.take (takeHtml cm ls).2 ∧
      1 ≤ (takeHtml cm ls).2 ∧ (takeHtml cm ls).2 ≤ ls.length ∧
      htmlStop cm ls ((takeHtml cm ls).2 - 1) ∧
      ∀ i, i + 1 < (takeHtml cm ls).2 → ¬ htmlStop cm ls i := by
  intro ls
  induction ls with
  | nil => intro h; exact absurd rfl h
  | cons l rest ih =>
    intro _
    by_cases hA : (cm && matchCommentEnd l) = true
    · have hres : takeHtml cm (l :: rest) = ([l], 1) := by
        simp only [takeHtml, if_pos hA]
      rw [hres]
      have hA' : cm = true ∧ matchCommentEnd l = true := by simpa using hA
      exact ⟨rfl, le_refl 1, by simp, Or.inl ⟨hA'.1, hA'.2⟩,
        fun i hi => absurd hi (by omega)⟩
    · cases rest with
      | nil =>
        have hres : takeHtml cm [l] = ([l], 1) := by
          simp only [takeHtml, if_neg hA]
        rw [hres]
        exact ⟨rfl, le_refl 1, by simp, Or.inr (Or.inl rfl),
          fun i hi => absurd hi (by omega)⟩
      | cons nxt rest' =>
        by_cases hB : blank nxt = true
        · have hres : takeHtml cm (l :: nxt :: rest') = ([l], 1) := by
            simp only [takeHtml, if_neg hA, hB, if_true]
          rw [hres]
          refine ⟨rfl, le_refl 1, by simp, Or.inr (Or.inr ?_),
            fun i hi => absurd hi (by omega)⟩
          simpa using hB
        · have hB' : blank nxt = false := by simpa using hB
          have hres : takeHtml cm (l :: nxt :: rest') =
              (l :: (takeHtml cm (nxt :: rest')).1,
               (takeHtml cm (nxt :: rest')).2 + 1) := by
            rw [takeHtml, if_neg hA]
            change (if blank nxt = true then (([l] : List Line), (1 : Nat))
              else (l :: (takeHtml cm (nxt :: rest')).1,
                (takeHtml cm (nxt :: rest')).2 + 1)) = _
            rw [if_neg hB]
          obtain ⟨ih1, ih2, ih3, ih4, ih5⟩ := ih (by simp)
          rw [hres]
          refine ⟨?_, by omega, by simpa using ih3, ?_, ?_⟩
          · simp only [List.take_succ_cons]
            rw [← ih1]
          · rw [Nat.add_sub_cancel, htmlStop_cons cm l (nxt :: rest') _ ih2]
            exact ih4
          · intro i hi
            cases i with
            | zero =>
              rintro (⟨hcm, hend⟩ | hlen | hblank)
              · exact hA (by simp [hcm, show matchCommentEnd l = true from hend])
              · simp only [List.length_cons] at hlen; omega
              · exact hB (by simpa using hblank)
            | succ i' =>
              rw [htmlStop_cons cm l (nxt :: rest') (i' + 1) (by omega)]
              simpa using ih5 i' (by omega)

/-- Claim C9 witness: the characterization applied to a concrete closed
comment block. -/
theorem claim9_witness :
    (takeHtml true (docLines "<!--\na\n-->")).1 =
      (docLines "<!--\na\n-->").take (takeHtml true (docLines "<!--\na\n-->")).2 ∧
    1 ≤ (takeHtml true (docLines "<!--\na\n-->")).2 ∧
    (takeHtml true (docLines "<!--\na\n-->")).2 ≤ (docLines "<!--\na\n-->").length ∧
    htmlStop true (docLines "<!--\na\n-->")
      ((takeHtml true (docLines "<!--\na\n-->")).2 - 1) ∧
    ∀ i, i + 1 < (takeHtml true (docLines "<!--\na\n-->")).2 →
      ¬ htmlStop true (docLines "<!--\na\n-->") i :=
  claim9_html_block true (docLines "<!--\na\n-->") (by decide)

/-- On a successful tolerant fence scan the cursor strictly advances past
the opening fence. -/
lemma mdx_parse_fenced_pos {ls : List Line} {pos : Nat} {lang : Line}
    {o : Option BlockToken} {p : Nat}
    (h : mdx_parse_fenced ls pos lang = .ok (o, p)) (hp : pos < ls.length) :
    pos < p := by
  unfold mdx_parse_fenced at h
  split at h
  · have h' := Except.ok.inj h
    have : ls.length = p := congrArg Prod.snd h'
    omega
  · split at h
    · have h' := Except.ok.inj h
      have : _ + _ + 2 = p := congrArg Prod.snd h'
      omega
    · split at h
      · cases h
      · have h' := Except.ok.inj h
        have : _ + _ + 2 = p := congrArg Prod.snd h'
        omega

/-- Every successful MDX loop iteration strictly advances the cursor. -/
lemma mdx_step_progress {ls : List Line} {st st' : PState}
    (hp : st.pos < ls.length) (h : mdx_step ls st = .ok st') :
    st.pos < st'.pos := by
  unfold mdx_step at h
  split at h
  · rename_i g₁ hfen
    split at h
    · rename_i t p hf
      have := mdx_parse_fenced_pos hf hp
      have h' := Except.ok.inj h
      rw [← h']
      exact this
    · rename_i p hf
      have := mdx_parse_fenced_pos hf hp
      have h' := Except.ok.inj h
      rw [← h']
      exact this
    · cases h
  · have h' := Except.ok.inj h
    rw [← h']
    exact Nat.lt_succ_self st.pos

/-- A budget of `length - pos` iterations always completes the MDX loop. -/
lemma mdxLoop_isSome {ls : List Line} :
    ∀ fuel st, ls.length - st.pos ≤ fuel → (mdxLoop ls fuel st).isSome = true := by
  intro fuel
  induction fuel with
  | zero =>
    intro st h
    unfold mdxLoop
    split
    · rfl
    · rename_i hlt
      exact absurd (by omega : ls.length ≤ st.pos) hlt
  | succ f ih =>
    intro st h
    unfold mdxLoop
    split
    · rfl
    · rename_i hlt
      rcases hs : mdx_step ls st with e | st'
      · rfl
      · have := mdx_step_progress (by omega) hs
        exact ih st' (by omega)

/-- Claim C10 counterexample: the tolerant (MDX) parser, on an unclosed
fenced block, absorbs the rest of the input but emits no Code token at
all — the claim's promised token (with a language fallback) is absent. -/
theorem claim10_counterexample :
    mdxParse "```py\ncode" = some (.ok []) := rfl

/-- Claim C10, amended: in the tolerant fence mode a missing closing fence
raises no error — the scan returns successfully with the cursor at the
end of the input — but it emits no token for the absorbed lines; and the
MDX parser as a whole always completes within one iteration per line. -/
theorem claim10_tolerant_fence :
    (∀ (ls : List Line) (pos : Nat) (lang : Line),
      findClose (ls.drop (pos + 1)) = none →
      mdx_parse_fenced ls pos lang = .ok (none, ls.length)) ∧
    (∀ text, (mdxParse text).isSome = true) := by
  constructor
  · intro ls pos lang h
    unfold mdx_parse_fenced
    rw [h]
  · intro text
    unfold mdxParse
    exact mdxLoop_isSome _ _ (by omega)

/-- Claim C10 witness: the unclosed concrete fence absorbs to the end of
the two-line input without error. -/
theorem claim10_witness :
    mdx_parse_fenced (docLines "```py\ncode") 0 "py".toList =
      .ok (none, (docLines "```py\ncode").length) :=
  claim10_tolerant_fence.1 (docLines "```py\ncode") 0 "py".toList rfl

end Mrkdwn
